import Mathlib

set_option maxHeartbeats 1000000

/-! Shallow embedding of the virtual-filesystem adapter in
src/src/syscall_handler.cc. Paths are modelled as lists of characters,
file contents as lists of bytes (naturals), and the backing key-value
store as one association list per column family, kept in the store's
native key order. C++ exceptions become an explicit error kind, and the
optional-int handler results become small inductive result types. -/

/-- File content: a byte sequence stored as one opaque blob. -/
abbrev Value := List Nat

/-- The C++ exceptions the handler code can throw. -/
inductive ExKind where
  /-- std invalid_argument: "unexpected path(name)" on a grammar failure. -/
  | invalidPath
  /-- std runtime_error "unexpected path" from GetCf on an unknown suffix. -/
  | unexpectedPath
  /-- std logic_error "not found" from Read on a missing entry. -/
  | notFound
  /-- std overflow_error "write offset overflow" from Write. -/
  | overflow
  /-- std bad_optional_access from value.value() in Rename. -/
  | badOptional
  /-- std runtime_error "can't open file" from ReadFile. -/
  | cantOpenFile
  /-- std out_of_range from string erase in Dir. -/
  | outOfRange
deriving DecidableEq

/-- The two column families, kCfNameDb and kCfNameFrm. -/
inductive Cf where
  | db
  | frm
deriving DecidableEq

/-- Association-list update: set key k to value v (the store's Put). -/
def assocPut : List (List Char × Value) → List Char → Value → List (List Char × Value)
  | [], k, v => [(k, v)]
  | (k', v') :: t, k, v => if k' = k then (k, v) :: t else (k', v') :: assocPut t k v

/-- Association-list lookup (the store's Get). -/
def assocGet : List (List Char × Value) → List Char → Option Value
  | [], _ => none
  | (k', v') :: t, k => if k' = k then some v' else assocGet t k

/-- Association-list removal (the store's Delete). -/
def assocDelete : List (List Char × Value) → List Char → List (List Char × Value)
  | [], _ => []
  | (k', v') :: t, k => if k' = k then assocDelete t k else (k', v') :: assocDelete t k

/-- The backing store: one association list per column family. -/
structure Store where
  dbL : List (List Char × Value)
  frmL : List (List Char × Value)
deriving DecidableEq

/-- The association list of one column family. -/
def Store.cfList (s : Store) : Cf → List (List Char × Value)
  | .db => s.dbL
  | .frm => s.frmL

/-- Store contract: Get(cf, key). -/
def Store.Get (s : Store) (cf : Cf) (k : List Char) : Option Value :=
  assocGet (s.cfList cf) k

/-- Store contract: Put(cf, key, value). -/
def Store.Put (s : Store) (cf : Cf) (k : List Char) (v : Value) : Store :=
  match cf with
  | .db => Store.mk (assocPut s.dbL k v) s.frmL
  | .frm => Store.mk s.dbL (assocPut s.frmL k v)

/-- Store contract: Delete(cf, key). -/
def Store.Delete (s : Store) (cf : Cf) (k : List Char) : Store :=
  match cf with
  | .db => Store.mk (assocDelete s.dbL k) s.frmL
  | .frm => Store.mk s.dbL (assocDelete s.frmL k)

/-- Store contract: GetKeys(cf, prefix) — all keys of the column family
that start with the given prefix, in store order. -/
def Store.GetKeys (s : Store) (cf : Cf) (pre : List Char) : List (List Char) :=
  ((s.cfList cf).map Prod.fst).filter (fun k => decide (pre <+: k))

/-- StrEndsWith from the source: suffix test on strings. -/
def StrEndsWith (str suffix : List Char) : Bool := decide (suffix <:+ str)

/-- IsKnownExtension: the path ends in ".frm" or ".opt". -/
def IsKnownExtension (path : List Char) : Bool :=
  StrEndsWith path ".frm".data || StrEndsWith path ".opt".data

/-- GetCf: column family from the extension; any other suffix throws
"unexpected path". -/
def GetCf (path : List Char) : Except ExKind Cf :=
  if StrEndsWith path ".frm".data then .ok .frm
  else if StrEndsWith path ".opt".data then .ok .db
  else .error .unexpectedPath

/-- NormalizePath: a path outside the fixed data root "/data/" is returned
unchanged; the root itself becomes "."; anything below it becomes
"./" followed by the remainder. -/
def NormalizePath (path : List Char) : List Char :=
  if "/data/".data <+: path then
    if path = "/data/".data then ".".data
    else "./".data ++ path.drop 6
  else path

/-- The character class of the path regexes: anything but dot and slash. -/
def isNameChar (c : Char) : Bool := decide (c ≠ '.' ∧ c ≠ '/')

/-- re_folder: full match of "./name" with an optional trailing slash,
the name nonempty and free of dots and slashes. -/
def matchFolder (path : List Char) : Bool :=
  match path with
  | '.' :: '/' :: rest =>
    !(rest.takeWhile isNameChar).isEmpty &&
      (decide (rest.dropWhile isNameChar = []) ||
        decide (rest.dropWhile isNameChar = ['/']))
  | _ => false

/-- re_path_to_known_file: full match of "./name/db.opt" or
"./name/base.frm" with name and base nonempty and free of dots and
slashes. -/
def matchKnownFile (path : List Char) : Bool :=
  match path with
  | '.' :: '/' :: rest =>
    !(rest.takeWhile isNameChar).isEmpty &&
      (match rest.dropWhile isNameChar with
       | '/' :: tail =>
         decide (tail = "db.opt".data) ||
           (!(tail.takeWhile isNameChar).isEmpty &&
             decide (tail.dropWhile isNameChar = ".frm".data))
       | _ => false)
  | _ => false

/-- re_path_to_temp_frm_file: full match of "./name/base.frm~". -/
def matchTempFrm (path : List Char) : Bool :=
  match path with
  | '.' :: '/' :: rest =>
    !(rest.takeWhile isNameChar).isEmpty &&
      (match rest.dropWhile isNameChar with
       | '/' :: tail =>
         !(tail.takeWhile isNameChar).isEmpty &&
           decide (tail.dropWhile isNameChar = ".frm~".data)
       | _ => false)
  | _ => false

/-- Index of the last slash of a path (string rfind of the source). -/
def lastSlashIdx : List Char → Option Nat
  | [] => none
  | c :: t =>
    match lastSlashIdx t with
    | some i => some (i + 1)
    | none => if c = '/' then some 0 else none

/-- The source expression string(path, 0, path.rfind(slash) + 1): the
prefix up to and including the last slash, empty when there is none
(npos + 1 wraps to a zero count). -/
def dirOfPath (path : List Char) : List Char :=
  match lastSlashIdx path with
  | none => []
  | some i => path.take (i + 1)

/-- The db.opt path of the database folder owning the given file path. -/
def dbOptPath (path : List Char) : List Char :=
  dirOfPath path ++ "db.opt".data

namespace SyscallHandler

/-- SyscallHandler main Exists (renamed: the source name collides with the
existential quantifier of Lean): whether the entry is in the store. -/
def existsInStore (s : Store) (path : List Char) : Except ExKind Bool :=
  match GetCf path with
  | .error e => .error e
  | .ok cf => .ok (s.Get cf path).isSome

/-- Result of SyscallHandler Open: not intercepted, -1 with ENOENT, a
redirected file handle, or a thrown exception. -/
inductive OpenRes where
  | notApplicable
  | enoent
  | opened
  | exn (k : ExKind)
deriving DecidableEq

/-- SyscallHandler Open; creat models the O_CREAT bit of flags. The mkdir
side effect for temporary frm files touches only the ephemeral medium. -/
def Open (s : Store) (pathname : List Char) (creat : Bool) : OpenRes :=
  let path := NormalizePath pathname
  if !(IsKnownExtension path) then
    if StrEndsWith path ".frm~".data then
      if !(matchTempFrm path) then .exn .invalidPath
      else .notApplicable
    else .notApplicable
  else if !(matchKnownFile path) then .exn .invalidPath
  else
    match existsInStore s path with
    | .error e => .exn e
    | .ok ex =>
      if !creat && !ex then .enoent
      else if StrEndsWith path ".frm".data then
        match existsInStore s (dbOptPath path) with
        | .error e => .exn e
        | .ok exDb => if !exDb then .enoent else .opened
      else .opened

/-- Result of SyscallHandler Stat: on success the size field is the only
stat output filled in. -/
inductive StatRes where
  | notApplicable
  | enoent
  | ok (size : Nat)
  | exn (k : ExKind)
deriving DecidableEq

/-- SyscallHandler Stat: note that the raw pathname is classified without
normalization. -/
def Stat (s : Store) (pathname : List Char) : StatRes :=
  if !(IsKnownExtension pathname) then .notApplicable
  else if !(matchKnownFile pathname) then .exn .invalidPath
  else
    match GetCf pathname with
    | .error e => .exn e
    | .ok cf =>
      match s.Get cf pathname with
      | none => .enoent
      | some v => .ok v.length

/-- Result of SyscallHandler Access. -/
inductive AccessRes where
  | notApplicable
  | ok
  | enoent
  | exn (k : ExKind)
deriving DecidableEq

/-- SyscallHandler Access, including the one-time "./" re-prepend retry
for known-extension paths presented without the relative marker. -/
def Access (s : Store) (pathname : List Char) : AccessRes :=
  let knownExt := IsKnownExtension pathname
  if knownExt then
    let path := if matchKnownFile pathname then pathname else "./".data ++ pathname
    if !(matchKnownFile path) then .exn .invalidPath
    else
      match existsInStore s path with
      | .error e => .exn e
      | .ok b => if b then .ok else .enoent
  else if matchFolder pathname then
    let withSlash :=
      if pathname.getLast? = some '/' then pathname else pathname ++ ['/']
    match existsInStore s (withSlash ++ "db.opt".data) with
    | .error e => .exn e
    | .ok b => if b then .ok else .notApplicable
  else .notApplicable

/-- Result of SyscallHandler Rename. -/
inductive RenameRes where
  | notApplicable
  | ok
  | exn (k : ExKind)
deriving DecidableEq

/-- SyscallHandler Rename; eph is the content ReadFile would return for
oldpath on the ephemeral medium (none: opening it fails). Returns the
result together with the store after the call. -/
def Rename (s : Store) (oldpath newpath : List Char) (eph : Option Value) :
    RenameRes × Store :=
  if StrEndsWith oldpath ".frm".data && StrEndsWith newpath ".frm".data then
    if !(matchKnownFile oldpath) then (.exn .invalidPath, s)
    else if !(matchKnownFile newpath) then (.exn .invalidPath, s)
    else
      match s.Get .frm oldpath with
      | none => (.exn .badOptional, s)
      | some v => (.ok, (s.Put .frm newpath v).Delete .frm oldpath)
  else if StrEndsWith oldpath ".frm~".data then
    if !(matchKnownFile newpath) then (.exn .invalidPath, s)
    else
      match eph with
      | none => (.exn .cantOpenFile, s)
      | some v => (.ok, s.Put .frm newpath v)
  else (.notApplicable, s)

/-- Result of SyscallHandler Unlink. -/
inductive UnlinkRes where
  | notApplicable
  | ok
  | exn (k : ExKind)
deriving DecidableEq

/-- SyscallHandler Unlink: removing a nonexistent key is not an error. -/
def Unlink (s : Store) (pathname : List Char) : UnlinkRes × Store :=
  if !(IsKnownExtension pathname) then (.notApplicable, s)
  else
    match GetCf pathname with
    | .error e => (.exn e, s)
    | .ok cf => (.ok, s.Delete cf pathname)

/-- Result of SyscallHandler Dir. -/
inductive DirRes where
  | ok (entries : List (List Char))
  | exn (k : ExKind)
deriving DecidableEq

/-- The Dir loop body for the Db family: x.erase(x.rfind(slash)) then
x.erase(0, 2), stripping "/db.opt" and "./"; string erase throws
out_of_range when the key holds no slash at all. -/
def stripDbKey (x : List Char) : Option (List Char) :=
  match lastSlashIdx x with
  | none => none
  | some i => some ((x.take i).drop 2)

/-- The Dir loop body for the Frm family: x.erase(0, x.rfind(slash) + 1),
stripping everything up to and including the final separator (with no
slash, npos + 1 wraps to a zero count and nothing is erased). -/
def stripFrmKey (x : List Char) : List Char :=
  match lastSlashIdx x with
  | none => x
  | some i => x.drop (i + 1)

/-- SyscallHandler Dir. -/
def Dir (s : Store) (pathname : List Char) : DirRes :=
  let path := NormalizePath pathname
  if path = ".".data then
    match (s.GetKeys .db []).mapM stripDbKey with
    | none => .exn .outOfRange
    | some l => .ok l
  else if matchFolder path then
    .ok ((s.GetKeys .frm path).map stripFrmKey)
  else .exn .invalidPath

/-- SyscallHandler Read: the bytes copied into the caller's buffer; the
returned byte count is their number. -/
def Read (s : Store) (path : List Char) (count offset : Nat) :
    Except ExKind Value :=
  match GetCf path with
  | .error e => .error e
  | .ok cf =>
    match s.Get cf path with
    | none => .error .notFound
    | some value =>
      if value.length ≤ offset then .ok []
      else .ok ((value.drop offset).take (min count (value.length - offset)))

/-- The size_t width: sizes and offsets wrap modulo 2 ^ 64. -/
def W : Nat := 2 ^ 64

/-- SyscallHandler Write: grow with zero fill to offset + length when
needed, overwrite the range at offset, store the whole value back. -/
def Write (s : Store) (path : List Char) (buf : Value) (offset : Nat) :
    Except ExKind Store :=
  match GetCf path with
  | .error e => .error e
  | .ok cf =>
    let value := (s.Get cf path).getD []
    let required := (offset + buf.length) % W
    if required < offset then .error .overflow
    else
      let grown :=
        if value.length < required then
          value ++ List.replicate (required - value.length) 0
        else value
      .ok (s.Put cf path
        (grown.take offset ++ buf ++ grown.drop (offset + buf.length)))

/-- SyscallHandler Size: the stored length, zero for a missing entry. -/
def Size (s : Store) (path : List Char) : Except ExKind Nat :=
  match GetCf path with
  | .error e => .error e
  | .ok cf => .ok ((s.Get cf path).getD []).length

end SyscallHandler

/-! Helper lemmas about the store primitives. -/

theorem assocGet_put_self (l : List (List Char × Value)) (k : List Char) (v : Value) :
    assocGet (assocPut l k v) k = some v := by
  induction l with
  | nil => simp [assocPut, assocGet]
  | cons kv t ih =>
    obtain ⟨k', v'⟩ := kv
    by_cases h : k' = k
    · simp [assocPut, assocGet, h]
    · simp [assocPut, assocGet, h, ih]

theorem assocGet_put_ne (l : List (List Char × Value)) (k k' : List Char) (v : Value)
    (h : k' ≠ k) : assocGet (assocPut l k v) k' = assocGet l k' := by
  have h' : ¬ (k = k') := fun hh => h hh.symm
  induction l with
  | nil => simp [assocPut, assocGet, h']
  | cons kv t ih =>
    obtain ⟨k0, v0⟩ := kv
    by_cases h0 : k0 = k
    · subst h0
      simp [assocPut, assocGet, h']
    · simp only [assocPut, if_neg h0]
      by_cases h1 : k0 = k'
      · simp [assocGet, h1]
      · simp [assocGet, h1, ih]

theorem assocGet_delete_self (l : List (List Char × Value)) (k : List Char) :
    assocGet (assocDelete l k) k = none := by
  induction l with
  | nil => simp [assocDelete, assocGet]
  | cons kv t ih =>
    obtain ⟨k', v'⟩ := kv
    by_cases h : k' = k
    · simp [assocDelete, h, ih]
    · simp [assocDelete, assocGet, h, ih]

theorem assocGet_delete_ne (l : List (List Char × Value)) (k k' : List Char)
    (h : k' ≠ k) : assocGet (assocDelete l k) k' = assocGet l k' := by
  have h' : ¬ (k = k') := fun hh => h hh.symm
  induction l with
  | nil => simp [assocDelete]
  | cons kv t ih =>
    obtain ⟨k0, v0⟩ := kv
    by_cases h0 : k0 = k
    · subst h0
      simp [assocDelete, assocGet, h', ih]
    · simp only [assocDelete, if_neg h0]
      by_cases h1 : k0 = k'
      · simp [assocGet, h1]
      · simp [assocGet, h1, ih]

theorem Store.Get_Put_self (s : Store) (cf : Cf) (k : List Char) (v : Value) :
    (s.Put cf k v).Get cf k = some v := by
  cases cf <;> simp [Store.Get, Store.Put, Store.cfList, assocGet_put_self]

theorem Store.Get_Put_ne (s : Store) (cf : Cf) (k k' : List Char) (v : Value)
    (h : k' ≠ k) : (s.Put cf k v).Get cf k' = s.Get cf k' := by
  cases cf <;> simp [Store.Get, Store.Put, Store.cfList, assocGet_put_ne _ _ _ _ h]

theorem Store.Get_Delete_self (s : Store) (cf : Cf) (k : List Char) :
    (s.Delete cf k).Get cf k = none := by
  cases cf <;> simp [Store.Get, Store.Delete, Store.cfList, assocGet_delete_self]

theorem Store.Get_Delete_ne (s : Store) (cf : Cf) (k k' : List Char)
    (h : k' ≠ k) : (s.Delete cf k).Get cf k' = s.Get cf k' := by
  cases cf <;> simp [Store.Get, Store.Delete, Store.cfList, assocGet_delete_ne _ _ _ h]

/-! Helper lemmas about suffixes and the path grammar. -/

theorem suffix_conflict {a b p : List Char} (hlen : a.length = b.length)
    (hne : a ≠ b) (ha : a <:+ p) (hb : b <:+ p) : False := by
  rcases List.suffix_or_suffix_of_suffix ha hb with h | h
  · exact hne (h.eq_of_length hlen)
  · exact hne (h.eq_of_length hlen.symm).symm

theorem not_frm_of_opt {p : List Char} (h : ".opt".data <:+ p) :
    ¬ (".frm".data <:+ p) :=
  fun hf => suffix_conflict (a := ".frm".data) (b := ".opt".data) rfl (by decide) hf h

theorem StrEndsWith_true {p suf : List Char} (h : suf <:+ p) :
    StrEndsWith p suf = true := by
  simp [StrEndsWith, h]

theorem StrEndsWith_false {p suf : List Char} (h : ¬ (suf <:+ p)) :
    StrEndsWith p suf = false := by
  simp [StrEndsWith, h]

theorem GetCf_of_frm {p : List Char} (h : ".frm".data <:+ p) :
    GetCf p = .ok .frm := by
  simp [GetCf, StrEndsWith_true h]

theorem GetCf_of_opt {p : List Char} (h : ".opt".data <:+ p) :
    GetCf p = .ok .db := by
  simp [GetCf, StrEndsWith_false (not_frm_of_opt h), StrEndsWith_true h]

theorem IsKnownExtension_of_frm {p : List Char} (h : ".frm".data <:+ p) :
    IsKnownExtension p = true := by
  simp [IsKnownExtension, StrEndsWith_true h]

theorem IsKnownExtension_of_opt {p : List Char} (h : ".opt".data <:+ p) :
    IsKnownExtension p = true := by
  simp [IsKnownExtension, StrEndsWith_true h]
theorem matchKnownFile_cases {p : List Char} (h : matchKnownFile p = true) :
    ∃ name tail, p = '.' :: '/' :: (name ++ '/' :: tail) ∧
      (tail = "db.opt".data ∨ ∃ base, tail = base ++ ".frm".data) := by
  unfold matchKnownFile at h
  split at h
  · next rest =>
    rw [Bool.and_eq_true] at h
    obtain ⟨hname, htail⟩ := h
    split at htail
    · next tail heq =>
      refine ⟨rest.takeWhile isNameChar, tail, ?_, ?_⟩
      · have hr : rest.takeWhile isNameChar ++ '/' :: tail = rest := by
          rw [← heq]
          exact List.takeWhile_append_dropWhile isNameChar rest
        rw [hr]
      · rw [Bool.or_eq_true, decide_eq_true_eq] at htail
        rcases htail with h1 | h2
        · exact Or.inl h1
        · rw [Bool.and_eq_true, decide_eq_true_eq] at h2
          refine Or.inr ⟨tail.takeWhile isNameChar, ?_⟩
          have hr2 : tail.takeWhile isNameChar ++ ".frm".data = tail := by
            rw [← h2.2]
            exact List.takeWhile_append_dropWhile isNameChar tail
          rw [hr2]
    · simp at htail
  · simp at h

theorem not_data_prefix_dot (rest : List Char) : ¬ ("/data/".data <+: '.' :: rest) := by
  rintro ⟨t, ht⟩
  rw [show "/data/".data = '/' :: "data/".data from rfl] at ht
  simp only [List.cons_append, List.cons.injEq] at ht
  exact absurd ht.1 (by decide)

theorem NormalizePath_dot (rest : List Char) :
    NormalizePath ('.' :: rest) = '.' :: rest := by
  simp [NormalizePath, not_data_prefix_dot rest]

theorem NormalizePath_idem (p : List Char) :
    NormalizePath (NormalizePath p) = NormalizePath p := by
  by_cases h : "/data/".data <+: p
  · by_cases he : p = "/data/".data
    · rw [show NormalizePath p = ".".data by simp [NormalizePath, h, he]]
      exact NormalizePath_dot []
    · rw [show NormalizePath p = "./".data ++ p.drop 6 by simp [NormalizePath, h, he]]
      exact NormalizePath_dot ('/' :: p.drop 6)
  · rw [show NormalizePath p = p by simp [NormalizePath, h]]
    simp [NormalizePath, h]

theorem NormalizePath_of_matchKnownFile {p : List Char} (h : matchKnownFile p = true) :
    NormalizePath p = p := by
  obtain ⟨name, tail, hp, -⟩ := matchKnownFile_cases h
  subst hp
  exact NormalizePath_dot _

theorem matchKnownFile_suffix {p : List Char} (h : matchKnownFile p = true) :
    ".opt".data <:+ p ∨ ".frm".data <:+ p := by
  obtain ⟨name, tail, hp, htail⟩ := matchKnownFile_cases h
  rcases htail with h1 | ⟨base, h2⟩
  · left
    refine ⟨'.' :: '/' :: (name ++ "/db".data), ?_⟩
    subst hp h1
    simp only [List.cons_append, List.append_assoc, List.nil_append]
  · right
    refine ⟨'.' :: '/' :: (name ++ '/' :: base), ?_⟩
    subst hp h2
    simp only [List.cons_append, List.append_assoc, List.nil_append]

theorem opt_suffix_dbOptPath (p : List Char) : ".opt".data <:+ dbOptPath p :=
  ⟨dirOfPath p ++ "db".data, by
    rw [dbOptPath, List.append_assoc]
    exact congrArg (fun x => dirOfPath p ++ x) (by decide)⟩
theorem lastSlashIdx_eq_none {m : List Char} (h : ('/' : Char) ∉ m) :
    lastSlashIdx m = none := by
  induction m with
  | nil => rfl
  | cons c t ih =>
    rw [List.mem_cons, not_or] at h
    have hc : ¬ (c = '/') := fun hh => h.1 hh.symm
    simp [lastSlashIdx, ih h.2, hc]

theorem lastSlashIdx_append (x m : List Char) (h : ('/' : Char) ∉ m) :
    lastSlashIdx (x ++ '/' :: m) = some x.length := by
  induction x with
  | nil => simp [lastSlashIdx, lastSlashIdx_eq_none h]
  | cons c t ih => simp [lastSlashIdx, ih]

theorem stripFrmKey_append (d f : List Char) (h : ('/' : Char) ∉ f) :
    SyscallHandler.stripFrmKey (d ++ '/' :: f) = f := by
  unfold SyscallHandler.stripFrmKey
  rw [lastSlashIdx_append d f h]
  rw [show d ++ '/' :: f = (d ++ ['/']) ++ f by simp]
  exact List.drop_left' (by simp)

theorem stripDbKey_eq (n : List Char) :
    SyscallHandler.stripDbKey ("./".data ++ n ++ "/db.opt".data) = some n := by
  have h2 : "./".data ++ n ++ "/db.opt".data = ("./".data ++ n) ++ '/' :: "db.opt".data := rfl
  unfold SyscallHandler.stripDbKey
  rw [h2, lastSlashIdx_append _ _ (by decide)]
  simp only [List.take_left]
  rfl

theorem existsInStore_frm {p : List Char} (s : Store) (hf : ".frm".data <:+ p) :
    SyscallHandler.existsInStore s p = .ok (s.Get .frm p).isSome := by
  simp [SyscallHandler.existsInStore, GetCf_of_frm hf]

theorem existsInStore_opt {p : List Char} (s : Store) (ho : ".opt".data <:+ p) :
    SyscallHandler.existsInStore s p = .ok (s.Get .db p).isSome := by
  simp [SyscallHandler.existsInStore, GetCf_of_opt ho]
/-! Claim theorems. -/

/-- C1 (amended): Open and Dir normalize the raw path before
classification, so each one's result on any raw path — in particular on
the absolute form under the fixed data root — equals its result on the
normalized relative form of the same path; the remaining handlers (Stat,
Access, Rename, Unlink) classify the raw path as given, without
normalization. -/
theorem C1_open_dir_normalize (s : Store) (raw : List Char) (creat : Bool) :
    SyscallHandler.Open s raw creat = SyscallHandler.Open s (NormalizePath raw) creat ∧
    SyscallHandler.Dir s raw = SyscallHandler.Dir s (NormalizePath raw) := by
  constructor
  · simp only [SyscallHandler.Open, NormalizePath_idem]
  · simp only [SyscallHandler.Dir, NormalizePath_idem]

/-- C1 counterexample: Stat classifies the raw path without normalizing
it, so on the absolute form under the data root it throws "unexpected
pathname" while on the normalized relative form of the same path it
reports ENOENT — the two results differ, refuting the claim for the Stat
handler. -/
theorem C1_counterexample :
    SyscallHandler.Stat (Store.mk [] []) "/data/db1/db.opt".data = .exn .invalidPath ∧
    SyscallHandler.Stat (Store.mk [] [])
      (NormalizePath "/data/db1/db.opt".data) = .enoent ∧
    SyscallHandler.StatRes.exn .invalidPath ≠ SyscallHandler.StatRes.enoent := by
  refine ⟨by decide, by decide, by decide⟩

/-- C2 (amended): for distinct paths a and b that both end in .frm and
both match the known-file grammar, when the store holds a value v for a,
Rename(a, b) succeeds, the store after the call is the store before it
with Put(Frm, b, v) applied first and Delete(Frm, a) applied second, the
intermediate store after the Put already holds v at b (and still holds v
at a), and afterwards the entry for a is absent while the entry for b is
v. -/
theorem C2_rename_frm_moves (s : Store) (a b : List Char) (eph : Option Value) (v : Value)
    (hne : a ≠ b)
    (ha : StrEndsWith a ".frm".data = true) (hb : StrEndsWith b ".frm".data = true)
    (hma : matchKnownFile a = true) (hmb : matchKnownFile b = true)
    (hv : s.Get .frm a = some v) :
    SyscallHandler.Rename s a b eph = (.ok, (s.Put .frm b v).Delete .frm a) ∧
    (s.Put .frm b v).Get .frm b = some v ∧
    (s.Put .frm b v).Get .frm a = some v ∧
    ((s.Put .frm b v).Delete .frm a).Get .frm a = none ∧
    ((s.Put .frm b v).Delete .frm a).Get .frm b = some v := by
  have hba : b ≠ a := fun hh => hne hh.symm
  refine ⟨?_, ?_, ?_, ?_, ?_⟩
  · simp [SyscallHandler.Rename, ha, hb, hma, hmb, hv]
  · exact Store.Get_Put_self s .frm b v
  · rw [Store.Get_Put_ne s .frm b a v hne]
    exact hv
  · exact Store.Get_Delete_self _ .frm a
  · rw [Store.Get_Delete_ne _ .frm a b hba]
    exact Store.Get_Put_self s .frm b v

/-- C2 witness: renaming ./d/t1.frm to ./d/t2.frm moves the stored value
to the new key. -/
theorem C2_witness :
    (SyscallHandler.Rename (Store.mk [] [("./d/t1.frm".data, [7])])
      "./d/t1.frm".data "./d/t2.frm".data none).2.Get .frm "./d/t2.frm".data
      = some [7] := by
  have h := C2_rename_frm_moves (Store.mk [] [("./d/t1.frm".data, [7])])
    "./d/t1.frm".data "./d/t2.frm".data none [7]
    (by decide) (by decide) (by decide) (by decide) (by decide) rfl
  rw [h.1]
  exact h.2.2.2.2

/-- C2 counterexample: with a = b = ./d/t.frm (the case the claim
explicitly includes), Rename succeeds but the entry for b ends up absent
rather than equal to the prior value of a: the Put is followed by a
Delete of the same key. -/
theorem C2_counterexample :
    (SyscallHandler.Rename (Store.mk [] [("./d/t.frm".data, [7])])
      "./d/t.frm".data "./d/t.frm".data none).1 = .ok ∧
    (Store.mk [] [("./d/t.frm".data, [7])]).Get .frm "./d/t.frm".data = some [7] ∧
    ¬ ((SyscallHandler.Rename (Store.mk [] [("./d/t.frm".data, [7])])
      "./d/t.frm".data "./d/t.frm".data none).2.Get .frm "./d/t.frm".data
      = some [7]) := by
  refine ⟨by decide, by decide, by decide⟩

/-- C7 (amended): for every path matching the known-file grammar, after
Unlink(p) the entry is gone, so Stat(p) fails with ENOENT and Access(p)
fails with ENOENT. -/
theorem C7_unlink_stat_access (s : Store) (p : List Char)
    (h : matchKnownFile p = true) :
    SyscallHandler.Stat ((SyscallHandler.Unlink s p).2) p = .enoent ∧
    SyscallHandler.Access ((SyscallHandler.Unlink s p).2) p = .enoent := by
  rcases matchKnownFile_suffix h with hopt | hfrm
  · have hext := IsKnownExtension_of_opt hopt
    have hcf := GetCf_of_opt hopt
    have hunl : (SyscallHandler.Unlink s p).2 = s.Delete .db p := by
      simp [SyscallHandler.Unlink, hext, hcf]
    have hex : SyscallHandler.existsInStore (s.Delete .db p) p = .ok false := by
      rw [existsInStore_opt (s.Delete .db p) hopt, Store.Get_Delete_self]
      rfl
    rw [hunl]
    constructor
    · simp [SyscallHandler.Stat, hext, h, hcf, Store.Get_Delete_self]
    · simp [SyscallHandler.Access, hext, h, hex]
  · have hext := IsKnownExtension_of_frm hfrm
    have hcf := GetCf_of_frm hfrm
    have hunl : (SyscallHandler.Unlink s p).2 = s.Delete .frm p := by
      simp [SyscallHandler.Unlink, hext, hcf]
    have hex : SyscallHandler.existsInStore (s.Delete .frm p) p = .ok false := by
      rw [existsInStore_frm (s.Delete .frm p) hfrm, Store.Get_Delete_self]
      rfl
    rw [hunl]
    constructor
    · simp [SyscallHandler.Stat, hext, h, hcf, Store.Get_Delete_self]
    · simp [SyscallHandler.Access, hext, h, hex]

/-- C7 witness: unlinking ./d/db.opt makes Stat and Access report ENOENT
on it. -/
theorem C7_witness :
    SyscallHandler.Stat
      ((SyscallHandler.Unlink (Store.mk [("./d/db.opt".data, [1])] [])
        "./d/db.opt".data).2) "./d/db.opt".data = .enoent ∧
    SyscallHandler.Access
      ((SyscallHandler.Unlink (Store.mk [("./d/db.opt".data, [1])] [])
        "./d/db.opt".data).2) "./d/db.opt".data = .enoent :=
  C7_unlink_stat_access (Store.mk [("./d/db.opt".data, [1])] [])
    "./d/db.opt".data (by decide)

/-- C7 counterexample: on a path with no known extension — the claim
quantifies over every path — Unlink is not applicable and a following
Stat or Access is also not applicable rather than an ENOENT failure. -/
theorem C7_counterexample :
    ¬ (SyscallHandler.Stat ((SyscallHandler.Unlink (Store.mk [] [])
      "abc".data).2) "abc".data = .enoent) ∧
    ¬ (SyscallHandler.Access ((SyscallHandler.Unlink (Store.mk [] [])
      "abc".data).2) "abc".data = .enoent) := by
  refine ⟨by decide, by decide⟩

/-- C9: for a known-extension path with no store entry, Read raises the
"not found" error for every count and offset, while Size returns zero. -/
theorem C9_read_size_absent (s : Store) (p : List Char) (cf : Cf) (count off : Nat)
    (hcf : GetCf p = .ok cf) (habs : s.Get cf p = none) :
    SyscallHandler.Read s p count off = .error .notFound ∧
    SyscallHandler.Size s p = .ok 0 := by
  constructor
  · simp [SyscallHandler.Read, hcf, habs]
  · simp [SyscallHandler.Size, hcf, habs]

/-- C9 witness: on the empty store, reading ./d/t.frm fails with "not
found" while its size is zero. -/
theorem C9_witness :
    SyscallHandler.Read (Store.mk [] []) "./d/t.frm".data 5 2 = .error .notFound ∧
    SyscallHandler.Size (Store.mk [] []) "./d/t.frm".data = .ok 0 :=
  C9_read_size_absent (Store.mk [] []) "./d/t.frm".data .frm 5 2 rfl rfl

/-- C10: when both Rename arguments end in .frm and match the known-file
grammar but the store has no Frm entry for the old path, Rename throws
(bad optional access) before any store mutation: the store is returned
unchanged, so in particular no entry appears under the new path. -/
theorem C10_rename_missing_source (s : Store) (a b : List Char) (eph : Option Value)
    (ha : StrEndsWith a ".frm".data = true) (hb : StrEndsWith b ".frm".data = true)
    (hma : matchKnownFile a = true) (hmb : matchKnownFile b = true)
    (hv : s.Get .frm a = none) :
    SyscallHandler.Rename s a b eph = (.exn .badOptional, s) := by
  simp [SyscallHandler.Rename, ha, hb, hma, hmb, hv]

/-- C10 witness: renaming a missing ./d/t1.frm throws and leaves the
empty store unchanged. -/
theorem C10_witness :
    SyscallHandler.Rename (Store.mk [] []) "./d/t1.frm".data "./d/t2.frm".data none
      = (.exn .badOptional, Store.mk [] []) :=
  C10_rename_missing_source (Store.mk [] []) "./d/t1.frm".data "./d/t2.frm".data none
    (by decide) (by decide) (by decide) (by decide) rfl
/-- C3 (amended): for every path matching the known-file grammar, Open
without the creation flag fails with ENOENT when the store holds no entry
for the path; for every .frm path of that grammar, Open fails with ENOENT
regardless of the creation flag when the owning database's db.opt entry
is absent from the store; and, with the creation flag set, Open succeeds
once that db.opt entry exists. -/
theorem C3_open_enoent :
    (∀ (s : Store) (p : List Char), matchKnownFile p = true →
      (∀ cf, s.Get cf p = none) →
      SyscallHandler.Open s p false = .enoent) ∧
    (∀ (s : Store) (p : List Char) (creat : Bool),
      ".frm".data <:+ p → matchKnownFile p = true →
      s.Get .db (dbOptPath p) = none →
      SyscallHandler.Open s p creat = .enoent) ∧
    (∀ (s : Store) (p : List Char),
      ".frm".data <:+ p → matchKnownFile p = true →
      (s.Get .db (dbOptPath p)).isSome = true →
      SyscallHandler.Open s p true = .opened) := by
  refine ⟨?_, ?_, ?_⟩
  · intro s p h habs
    have hnorm := NormalizePath_of_matchKnownFile h
    rcases matchKnownFile_suffix h with hopt | hfrm
    · have hext := IsKnownExtension_of_opt hopt
      have hex : SyscallHandler.existsInStore s p = .ok false := by
        rw [existsInStore_opt s hopt, habs Cf.db]
        rfl
      simp [SyscallHandler.Open, hnorm, hext, h, hex]
    · have hext := IsKnownExtension_of_frm hfrm
      have hex : SyscallHandler.existsInStore s p = .ok false := by
        rw [existsInStore_frm s hfrm, habs Cf.frm]
        rfl
      simp [SyscallHandler.Open, hnorm, hext, h, hex]
  · intro s p creat hfrm h hdb
    have hnorm := NormalizePath_of_matchKnownFile h
    have hext := IsKnownExtension_of_frm hfrm
    have hexdb : SyscallHandler.existsInStore s (dbOptPath p) = .ok false := by
      rw [existsInStore_opt s (opt_suffix_dbOptPath p), hdb]
      rfl
    simp [SyscallHandler.Open, hnorm, hext, h, StrEndsWith_true hfrm, hexdb,
      existsInStore_frm s hfrm]
  · intro s p hfrm h hdb
    have hnorm := NormalizePath_of_matchKnownFile h
    have hext := IsKnownExtension_of_frm hfrm
    have hexdb : SyscallHandler.existsInStore s (dbOptPath p) = .ok true := by
      rw [existsInStore_opt s (opt_suffix_dbOptPath p), hdb]
    simp [SyscallHandler.Open, hnorm, hext, h, StrEndsWith_true hfrm, hexdb,
      existsInStore_frm s hfrm]

/-- C3 witness: with an empty store, opening ./db1/db.opt without
creation fails with ENOENT; opening ./db1/t1.frm with creation fails with
ENOENT while ./db1/db.opt is absent; once ./db1/db.opt exists, opening
./db1/t1.frm with creation succeeds. -/
theorem C3_witness :
    SyscallHandler.Open (Store.mk [] []) "./db1/db.opt".data false = .enoent ∧
    SyscallHandler.Open (Store.mk [] []) "./db1/t1.frm".data true = .enoent ∧
    SyscallHandler.Open (Store.mk [("./db1/db.opt".data, [])] [])
      "./db1/t1.frm".data true = .opened :=
  ⟨C3_open_enoent.1 (Store.mk [] []) "./db1/db.opt".data (by decide)
      (fun cf => by cases cf <;> rfl),
    C3_open_enoent.2.1 (Store.mk [] []) "./db1/t1.frm".data true
      (by decide) (by decide) rfl,
    C3_open_enoent.2.2 (Store.mk [("./db1/db.opt".data, [])] [])
      "./db1/t1.frm".data (by decide) (by decide) rfl⟩

/-- C3 counterexample: the claim's unconditional "succeeds once that
db.opt entry exists" fails when the creation flag is absent and the .frm
entry itself does not exist: with ./db1/db.opt present and ./db1/t1.frm
absent, opening ./db1/t1.frm without creation reports ENOENT instead of
succeeding. -/
theorem C3_counterexample :
    (Store.mk [("./db1/db.opt".data, [])] []).Get .db
      (dbOptPath "./db1/t1.frm".data) = some [] ∧
    SyscallHandler.Open (Store.mk [("./db1/db.opt".data, [])] [])
      "./db1/t1.frm".data false = .enoent ∧
    SyscallHandler.OpenRes.enoent ≠ SyscallHandler.OpenRes.opened := by
  refine ⟨by decide, by decide, by decide⟩
/-- Closed form of Write when the size arithmetic does not overflow: the
value is looked up (empty when absent), grown with zero fill to
offset + length when shorter, overwritten on the byte range at the
offset, and stored back whole. -/
theorem Write_eq (s : Store) (p : List Char) (data : Value) (off : Nat) (cf : Cf)
    (hcf : GetCf p = .ok cf) (hW : off + data.length < SyscallHandler.W) :
    SyscallHandler.Write s p data off =
      .ok (s.Put cf p (
        (if ((s.Get cf p).getD []).length < off + data.length then
            (s.Get cf p).getD [] ++
              List.replicate (off + data.length - ((s.Get cf p).getD []).length) 0
          else (s.Get cf p).getD []).take off ++ data ++
        (if ((s.Get cf p).getD []).length < off + data.length then
            (s.Get cf p).getD [] ++
              List.replicate (off + data.length - ((s.Get cf p).getD []).length) 0
          else (s.Get cf p).getD []).drop (off + data.length))) := by
  have hmod : (off + data.length) % SyscallHandler.W = off + data.length :=
    Nat.mod_eq_of_lt hW
  have h0 : ¬ (off + data.length < off) := by omega
  simp only [SyscallHandler.Write, hcf, hmod]
  rw [if_neg h0]

/-- The list produced by a write whose offset is at or past the end of
the old value: the old value, a zero-filled gap, then the data. -/
theorem write_value_gap (old data : Value) (off : Nat) (hgap : old.length ≤ off) :
    (if old.length < off + data.length then
        old ++ List.replicate (off + data.length - old.length) 0
      else old).take off ++ data ++
    (if old.length < off + data.length then
        old ++ List.replicate (off + data.length - old.length) 0
      else old).drop (off + data.length)
    = old ++ List.replicate (off - old.length) 0 ++ data := by
  by_cases hg : old.length < off + data.length
  · rw [if_pos hg]
    have htake : (old ++ List.replicate (off + data.length - old.length) 0).take off
        = old ++ List.replicate (off - old.length) 0 := by
      rw [List.take_append_eq_append_take, List.take_of_length_le hgap,
        List.take_replicate]
      have hmin : min (off - old.length) (off + data.length - old.length)
          = off - old.length := by omega
      rw [hmin]
    have hdrop : (old ++ List.replicate (off + data.length - old.length) 0).drop
        (off + data.length) = [] :=
      List.drop_eq_nil_of_le (by simp [List.length_append]; omega)
    rw [htake, hdrop, List.append_nil]
  · rw [if_neg hg]
    have hlen0 : data.length = 0 := by omega
    have hoff : old.length = off := by omega
    have hdata : data = [] := List.length_eq_zero.mp hlen0
    subst hdata
    rw [List.take_of_length_le hgap, List.drop_eq_nil_of_le (by omega)]
    simp [hoff]

/-- Reading back length-of-data bytes from offset zero of a stored value
that starts with the data returns exactly the data. -/
theorem Read_append_self (s : Store) (p : List Char) (data B : Value) (cf : Cf)
    (hcf : GetCf p = .ok cf) (hget : s.Get cf p = some (data ++ B)) :
    SyscallHandler.Read s p data.length 0 = .ok data := by
  simp only [SyscallHandler.Read, hcf, hget]
  by_cases h0 : (data ++ B).length ≤ 0
  · rw [if_pos h0]
    have hnil : data ++ B = [] := List.length_eq_zero.mp (Nat.le_zero.mp h0)
    have hd : data = [] := (List.append_eq_nil.mp hnil).1
    rw [hd]
  · rw [if_neg h0]
    have hmin : min data.length ((data ++ B).length - 0) = data.length := by
      rw [Nat.sub_zero, List.length_append]
      exact Nat.min_eq_left (Nat.le_add_right _ _)
    rw [List.drop_zero, hmin, List.take_left]

/-- C4: for every known-extension path, Write(p, data, 0) followed by
Read(p, len(data), 0) copies back exactly data; the returned byte count
is the length of the copied bytes, len(data). -/
theorem C4_write_read_roundtrip (s : Store) (p : List Char) (data : Value) (cf : Cf)
    (hcf : GetCf p = .ok cf) (hlen : data.length < SyscallHandler.W) :
    ∃ s', SyscallHandler.Write s p data 0 = .ok s' ∧
      SyscallHandler.Read s' p data.length 0 = .ok data := by
  have hW0 : 0 + data.length < SyscallHandler.W := by rwa [Nat.zero_add]
  have hw := Write_eq s p data 0 cf hcf hW0
  simp only [List.take_zero, List.nil_append] at hw
  exact ⟨_, hw, Read_append_self _ p data _ cf hcf (Store.Get_Put_self s cf p _)⟩

/-- C4 witness: writing two bytes at offset zero and reading them back
returns them unchanged. -/
theorem C4_witness :
    ∃ s', SyscallHandler.Write (Store.mk [] []) "./d/t.frm".data [1, 2] 0 = .ok s' ∧
      SyscallHandler.Read s' "./d/t.frm".data ([1, 2] : Value).length 0 = .ok [1, 2] :=
  C4_write_read_roundtrip (Store.mk [] []) "./d/t.frm".data [1, 2] .frm rfl (by decide)

/-- C5: a write at an offset at or beyond the current length zero-fills
the gap between the old end of value and the offset, writes the data on
the range starting at the offset, and stores the whole updated value. -/
theorem C5_write_gap_zero_fill (s : Store) (p : List Char) (data : Value) (off : Nat)
    (cf : Cf) (hcf : GetCf p = .ok cf) (hW : off + data.length < SyscallHandler.W)
    (hgap : ((s.Get cf p).getD []).length ≤ off) :
    SyscallHandler.Write s p data off =
      .ok (s.Put cf p ((s.Get cf p).getD [] ++
        List.replicate (off - ((s.Get cf p).getD []).length) 0 ++ data)) := by
  rw [Write_eq s p data off cf hcf hW, write_value_gap _ _ _ hgap]

/-- C5 witness: writing the single byte 88 at offset 5 of a missing entry
stores the six-byte value of five zero bytes followed by 88. -/
theorem C5_witness :
    SyscallHandler.Write (Store.mk [] []) "./d/t.frm".data [88] 5 =
      .ok (Store.mk [] [("./d/t.frm".data, [0, 0, 0, 0, 0, 88])]) :=
  C5_write_gap_zero_fill (Store.mk [] []) "./d/t.frm".data [88] 5 .frm rfl
    (by decide) (by decide)

/-- C6: for a known-extension path, Write fails with the overflow error
exactly when offset + length exceeds the largest representable size (that
is, reaches 2 ^ 64); otherwise no error is raised and the entry for the
path is updated with a Put. The bounds on offset and length alone state
that both fit in the machine size type, as they do in the source. -/
theorem C6_write_overflow_iff (s : Store) (p : List Char) (data : Value) (off : Nat)
    (cf : Cf) (hcf : GetCf p = .ok cf) (hoff : off < SyscallHandler.W)
    (hlen : data.length < SyscallHandler.W) :
    (SyscallHandler.Write s p data off = .error .overflow ↔
      SyscallHandler.W ≤ off + data.length) ∧
    (off + data.length < SyscallHandler.W →
      ∃ v', SyscallHandler.Write s p data off = .ok (s.Put cf p v')) := by
  constructor
  · constructor
    · intro hw
      by_contra hlt
      rw [Nat.not_le] at hlt
      rw [Write_eq s p data off cf hcf hlt] at hw
      exact Except.noConfusion hw
    · intro hge
      have hmod : (off + data.length) % SyscallHandler.W
          = off + data.length - SyscallHandler.W := by
        rw [Nat.mod_eq_sub_mod hge]
        exact Nat.mod_eq_of_lt (by omega)
      simp only [SyscallHandler.Write, hcf, hmod]
      rw [if_pos (by omega)]
  · intro hlt
    exact ⟨_, Write_eq s p data off cf hcf hlt⟩

/-- C6 witness: at offset 2 ^ 64 - 1 a one-byte write overflows the size
computation and fails with the overflow error. -/
theorem C6_witness :
    SyscallHandler.Write (Store.mk [] []) "./d/t.frm".data [1]
      (SyscallHandler.W - 1) = .error .overflow :=
  (C6_write_overflow_iff (Store.mk [] []) "./d/t.frm".data [1]
    (SyscallHandler.W - 1) .frm rfl (by decide) (by decide)).1.mpr (by decide)
/-- Stripping the Db-family loop body over well-formed db.opt keys
recovers the bare database names. -/
theorem mapM_stripDb (names : List (List Char)) :
    (names.map (fun n => "./".data ++ n ++ "/db.opt".data)).mapM
      SyscallHandler.stripDbKey = some names := by
  induction names with
  | nil => rfl
  | cons n t ih =>
    rw [List.map_cons, List.mapM_cons, stripDbKey_eq, ih]
    rfl

/-- Stripping the Frm-family loop body over keys of the form
folder/filename with a slash-free filename recovers the filenames. -/
theorem map_stripFrm (dfs : List (List Char × List Char))
    (h : ∀ df ∈ dfs, ('/' : Char) ∉ df.2) :
    (dfs.map (fun df => df.1 ++ '/' :: df.2)).map SyscallHandler.stripFrmKey
      = dfs.map Prod.snd := by
  induction dfs with
  | nil => rfl
  | cons d t ih =>
    simp only [List.map_cons]
    rw [stripFrmKey_append d.1 d.2 (h d (List.mem_cons_self d t)),
      ih (fun x hx => h x (List.mem_cons_of_mem d hx))]

/-- C8: Dir on the root placeholder lists every Db-family key with its
trailing /db.opt segment and leading ./ marker stripped (the bare
database names); Dir on a folder-grammar path lists every Frm-family key
having the path as a prefix, stripped of everything up to and including
the final separator (the bare filenames); Dir on any other normalized
path shape fails with the "invalid path" error. -/
theorem C8_dir_listing :
    (∀ (s : Store) (raw : List Char) (names : List (List Char)),
      NormalizePath raw = ".".data →
      s.dbL.map Prod.fst = names.map (fun n => "./".data ++ n ++ "/db.opt".data) →
      SyscallHandler.Dir s raw = .ok names) ∧
    (∀ (s : Store) (raw : List Char) (dfs : List (List Char × List Char)),
      matchFolder (NormalizePath raw) = true →
      (s.frmL.map Prod.fst).filter
          (fun k => decide (NormalizePath raw <+: k)) =
        dfs.map (fun df => df.1 ++ '/' :: df.2) →
      (∀ df ∈ dfs, ('/' : Char) ∉ df.2) →
      SyscallHandler.Dir s raw = .ok (dfs.map Prod.snd)) ∧
    (∀ (s : Store) (raw : List Char),
      NormalizePath raw ≠ ".".data → matchFolder (NormalizePath raw) = false →
      SyscallHandler.Dir s raw = .exn .invalidPath) := by
  refine ⟨?_, ?_, ?_⟩
  · intro s raw names hroot hkeys
    have hfilter : Store.GetKeys s .db [] = s.dbL.map Prod.fst := by
      simp only [Store.GetKeys, Store.cfList]
      exact List.filter_eq_self.mpr (fun a _ => decide_eq_true List.nil_prefix)
    have hmap : (Store.GetKeys s .db []).mapM SyscallHandler.stripDbKey = some names := by
      rw [hfilter, hkeys, mapM_stripDb]
    simp only [SyscallHandler.Dir, hroot, eq_self_iff_true, if_true]
    rw [hmap]
  · intro s raw dfs hfold hkeys hslash
    have hne : NormalizePath raw ≠ ".".data := by
      intro he
      rw [he] at hfold
      exact absurd hfold (by decide)
    have hgk : Store.GetKeys s .frm (NormalizePath raw) =
        dfs.map (fun df => df.1 ++ '/' :: df.2) := by
      simpa [Store.GetKeys, Store.cfList] using hkeys
    simp [SyscallHandler.Dir, hne, hfold, hgk, map_stripFrm dfs hslash]
  · intro s raw h1 h2
    simp [SyscallHandler.Dir, h1, h2]

/-- C8 witness: listing the root of a store holding db1 and db2 yields
the database names; listing ./db1/ yields the table filenames; a nested
path fails with the invalid-path error. -/
theorem C8_witness :
    SyscallHandler.Dir
      (Store.mk [("./db1/db.opt".data, []), ("./db2/db.opt".data, [])] [])
      "/data/".data = .ok ["db1".data, "db2".data] ∧
    SyscallHandler.Dir
      (Store.mk [] [("./db1/t1.frm".data, []), ("./db1/t2.frm".data, [])])
      "./db1/".data = .ok ["t1.frm".data, "t2.frm".data] ∧
    SyscallHandler.Dir (Store.mk [] []) "./a/b".data = .exn .invalidPath :=
  ⟨C8_dir_listing.1 _ _ ["db1".data, "db2".data] (by decide) (by decide),
    C8_dir_listing.2.1 _ _
      [("./db1".data, "t1.frm".data), ("./db1".data, "t2.frm".data)]
      (by decide) (by decide) (by decide),
    C8_dir_listing.2.2 _ _ (by decide) (by decide)⟩
